import Mathlib

/-!
Verification of the binary search tree (`src/bst.rs`) and the singly linked list
(`src/linked_list.rs`) of this repository, as a shallow embedding in Lean.

Conventions of the embedding:
* `Option<Box<Node<T>>>` is modelled by `Tree α`: `Tree.leaf` stands for `None`
  (an absent child slot, or an empty root), and `Tree.node l v r` stands for
  `Some(Node { value: v, left_branch: l, right_branch: r })`.
* Methods on `Node` become functions taking the node's three fields
  `(left_branch, value, right_branch)` as separate arguments.
* `value.cmp(&self.value)` becomes `compare v x` for a `LinearOrder`.
* The removal helpers `find_minimum_child_below` and `drop_misaligned_child`
  recurse on `self` without descending, so they are not structurally recursive;
  they are embedded with an explicit fuel argument, `none` standing for a
  computation that exhausts every stack budget (infinite recursion).
* `LinkedList<T>` (an `Rc`/`Weak`/`RefCell` chain) is modelled by the list of
  values reachable from `head`, in order; see the comment at `LinkedList`.
-/

namespace RustBst

/-- Shallow embedding of `Option<Box<Node<T>>>` from `src/bst.rs`. -/
inductive Tree (α : Type) where
  | leaf : Tree α
  | node (left : Tree α) (value : α) (right : Tree α)
deriving DecidableEq

variable {α : Type}

/-- The values held in a tree, listed left-to-right (specification-level helper;
used to state properties about value sets and inorder output). -/
def Tree.inorderList : Tree α → List α
  | .leaf => []
  | .node l v r => l.inorderList ++ v :: r.inorderList

/-- Number of nodes in a tree (specification-level helper). -/
def Tree.size : Tree α → Nat
  | .leaf => 0
  | .node l _ r => l.size + r.size + 1

section Order

variable [LinearOrder α]

/-- The strict BST order invariant, as a decidable check: at every node, all
values of the left subtree are smaller and all values of the right subtree are
larger than the node's value (specification-level helper). -/
def Tree.ordered : Tree α → Bool
  | .leaf => true
  | .node l x r =>
    l.inorderList.all (fun a => decide (a < x)) &&
    r.inorderList.all (fun a => decide (x < a)) &&
    l.ordered && r.ordered

/-- Embedding of `BinarySearchTree::add_value` together with
`Node::add_value_as_child` (src/bst.rs lines 70-79 and 161-179): on an absent
slot (`None` root, or absent child reached by the descent) a fresh leaf node is
allocated; otherwise the new value is compared three-way with the node's value,
descending left on `Less`, right on `Greater`, and discarding on `Equal`. -/
def Tree.addValue : Tree α → α → Tree α
  | .leaf, v => .node .leaf v .leaf
  | .node l x r, v =>
    match compare v x with
    | .lt => .node (Tree.addValue l v) x r
    | .gt => .node l x (Tree.addValue r v)
    | .eq => .node l x r

/-- Inserting a whole list of values, first element first (drives the
"for every sequence of insertions" properties). -/
def Tree.insertList (t : Tree α) (xs : List α) : Tree α :=
  xs.foldl Tree.addValue t

end Order

section Removal

variable [LinearOrder α]

/-- Embedding of `Node::find_minimum_child_below` (src/bst.rs lines 286-292),
called on a node with fields `(l, x, r)`. The Rust body is
`if self.left_branch.is_some() { self.find_minimum_child_below() } else { self }`:
when a left child exists it recurses on `self` again, with the very same
arguments, so it never descends. The call is embedded with a fuel argument:
`none` means the recursion exhausts every stack budget (infinite recursion /
stack overflow); `some (ml, mv, mr)` returns the fields of the node the
resulting `&mut Node` reference points at. -/
def findMinimumChildBelow : Nat → Tree α → α → Tree α → Option (Tree α × α × Tree α)
  | 0, _, _, _ => none
  | fuel + 1, .node ll lx lr, x, r => findMinimumChildBelow fuel (.node ll lx lr) x r
  | _ + 1, .leaf, x, r => some (.leaf, x, r)

/-- Embedding of `Node::drop_misaligned_child` (src/bst.rs lines 295-303),
called on a node with fields `(l, v, r)`; returns the updated node. If a left
child exists and `self.value < left_child.value`, the left link is cleared;
if a left child exists otherwise, the method recurses on `self` with the same
arguments (again no descent, hence the fuel; `none` = infinite recursion).
With no left child nothing happens. -/
def dropMisalignedChild : Nat → Tree α → α → Tree α → Option (Tree α)
  | 0, _, _, _ => none
  | fuel + 1, .node ll lv lr, v, r =>
    if v < lv then some (.node .leaf v r)
    else dropMisalignedChild fuel (.node ll lv lr) v r
  | _ + 1, .leaf, v, r => some (.node .leaf v r)

/-- Embedding of `Node::remove_self_from_tree` (src/bst.rs lines 242-279),
called on a node with fields `(l, x, r)`; the returned
`Option<Box<Node<T>>>` replacement subtree is a `Tree α` (with `leaf` for
`None`), wrapped in the fuel `Option` (`none` = infinite recursion below).

With at most one child the node is replaced by that child (or by an empty
slot). With two children the source calls `find_minimum_child_below` on the
right child, swaps `self.value` with the value behind the returned mutable
reference, calls `drop_misaligned_child` on the right child, and returns the
node. Whenever `find_minimum_child_below` terminates it has never moved off
its receiver, so the returned reference is the right child itself (lemma
`findMinimumChildBelow_eq_self` below): the swap therefore leaves `mv` (the
value found) in the node and `x` in the right child, whose fields are
`(ml, x, mr)` when `drop_misaligned_child` runs on it. No recursive re-delete
of the swapped value follows (the source only has the comment
"recursive downcall should happen here"). -/
def removeSelfFromTree (fuel : Nat) (l : Tree α) (x : α) (r : Tree α) : Option (Tree α) :=
  match l, r with
  | .leaf, .leaf => some .leaf
  | .leaf, .node _ _ _ => some r
  | .node _ _ _, .leaf => some l
  | .node _ _ _, .node rl rv rr =>
    match findMinimumChildBelow fuel rl rv rr with
    | none => none
    | some (ml, mv, mr) =>
      match dropMisalignedChild fuel ml x mr with
      | none => none
      | some r2 => some (.node l mv r2)

/-- Embedding of `Node::remove_value_if_child` (src/bst.rs lines 202-214),
the method receiver being the (necessarily nonempty) tree argument: on `Less`
with an existing left child, recurse there and reattach the result;
symmetrically on `Greater`; on `Equal`, defer to `remove_self_from_tree`;
otherwise (absent child on the search side) fall through and return the node
unchanged. The `leaf` case is unreachable — the Rust method is only ever
invoked on an existing `Node`, guarded by `is_some()`. -/
def removeValueIfChild (fuel : Nat) (v : α) : Tree α → Option (Tree α)
  | .leaf => some .leaf
  | .node l x r =>
    match compare v x with
    | .lt =>
      match l with
      | .node _ _ _ => (removeValueIfChild fuel v l).map (fun l2 => .node l2 x r)
      | .leaf => some (.node l x r)
    | .gt =>
      match r with
      | .node _ _ _ => (removeValueIfChild fuel v r).map (fun r2 => .node l x r2)
      | .leaf => some (.node l x r)
    | .eq => removeSelfFromTree fuel l x r

/-- Embedding of `BinarySearchTree::remove_value` (src/bst.rs lines 88-92):
with an absent root nothing happens, otherwise the root is replaced by the
result of `remove_value_if_child`. -/
def removeValue (fuel : Nat) (t : Tree α) (v : α) : Option (Tree α) :=
  match t with
  | .leaf => some .leaf
  | .node _ _ _ => removeValueIfChild fuel v t

end Removal

/-- Embedding of `TreeTraversalOrders` (src/bst.rs lines 46-48). -/
inductive TreeTraversalOrders where
  | Inorder | Preorder | Postorder
deriving DecidableEq

/-- Embedding of `Node::collectpeek_inorder` (src/bst.rs lines 338-347): the
`&mut Vec` accumulator becomes a list argument, `push` appends at the end. -/
def collectpeekInorder : Tree α → List α → List α
  | .leaf, list => list
  | .node l v r, list => collectpeekInorder r (collectpeekInorder l list ++ [v])

/-- Embedding of `Node::collectpeek_preorder` (src/bst.rs lines 372-381). -/
def collectpeekPreorder : Tree α → List α → List α
  | .leaf, list => list
  | .node l v r, list => collectpeekPreorder r (collectpeekPreorder l (list ++ [v]))

/-- Embedding of `Node::collectpeek_postorder` (src/bst.rs lines 389-398). -/
def collectpeekPostorder : Tree α → List α → List α
  | .leaf, list => list
  | .node l v r, list => collectpeekPostorder r (collectpeekPostorder l list) ++ [v]

/-- Embedding of `BinarySearchTree::collectpeek_traversal_values`
(src/bst.rs lines 99-107): a fresh empty accumulator is filled by the
recursive collector selected by `order`. -/
def collectpeekTraversalValues (t : Tree α) (order : TreeTraversalOrders) : List α :=
  match order with
  | .Inorder => collectpeekInorder t []
  | .Preorder => collectpeekPreorder t []
  | .Postorder => collectpeekPostorder t []

/-- Embedding of `LinkedList<T>` (src/linked_list.rs lines 44-47): the state is
the list of values in the nodes reachable from `head`, front first. The `tail`
member is a `Weak` reference to the last appended node; under the list's
single-owner usage (a node handed out by `dequeue` is dropped once its value
has been read, which is how both the traversal consumer and the repository's
tests use it) the `tail` upgrade in `add_value` succeeds exactly when the head
chain is nonempty, so the weak pointer needs no separate state here. -/
structure LinkedList (α : Type) where
  chain : List α
deriving DecidableEq

/-- Embedding of `LinkedList::new` (src/linked_list.rs lines 54-59): no head,
dangling tail. -/
def LinkedList.new : LinkedList α := ⟨[]⟩

/-- Embedding of `LinkedList::add_value` (src/linked_list.rs lines 66-81): a
fresh node is allocated; if the tail upgrade succeeds (nonempty chain) the new
node is linked behind the current last node, otherwise it becomes the head.
Both cases append the value at the back of the chain. -/
def LinkedList.addValue (ll : LinkedList α) (v : α) : LinkedList α :=
  ⟨ll.chain ++ [v]⟩

/-- Embedding of `LinkedList::peek_head_value` (src/linked_list.rs lines
84-89): the value of the head node, if any. -/
def LinkedList.peekHeadValue (ll : LinkedList α) : Option α :=
  ll.chain.head?

/-- Embedding of `LinkedList::dequeue` (src/linked_list.rs lines 93-102):
`head.take()` on an empty list returns `None` and leaves the list as it was;
otherwise the head node is unlinked (its `next` becomes the new head) and
returned — modelled by returning its value. -/
def LinkedList.dequeue (ll : LinkedList α) : Option α × LinkedList α :=
  match ll.chain with
  | [] => (none, ⟨[]⟩)
  | x :: xs => (some x, ⟨xs⟩)

/-- Embedding of `Node::collectpeek_inorder_cratell` (src/bst.rs lines
355-364): identical to `collectpeek_inorder` but the accumulator is the
crate's `LinkedList`, filled through `add_value`. -/
def collectpeekInorderCratell : Tree α → LinkedList α → LinkedList α
  | .leaf, list => list
  | .node l v r, list =>
    collectpeekInorderCratell r ((collectpeekInorderCratell l list).addValue v)

/-- Embedding of `BinarySearchTree::collectpeek_traversal_values_cratell`
(src/bst.rs lines 119-127): a fresh `LinkedList` is filled for `Inorder`,
while the `Preorder` and `Postorder` arms are `todo!()` — a panic, modelled as
`none`. -/
def collectpeekTraversalValuesCratell (t : Tree α) (order : TreeTraversalOrders) :
    Option (LinkedList α) :=
  match order with
  | .Inorder => some (collectpeekInorderCratell t LinkedList.new)
  | .Preorder => none
  | .Postorder => none

/-- A client-visible operation on the linked list: append a value at the back,
or remove the front element (used to state the FIFO contract over arbitrary
interleavings). -/
inductive LLOp (α : Type) where
  | add (v : α)
  | deq

/-- The values appended by a sequence of operations, in order. -/
def addedValues : List (LLOp α) → List α
  | [] => []
  | .add v :: ops => v :: addedValues ops
  | .deq :: ops => addedValues ops

/-- Run a sequence of operations on a linked list; returns the final list and
the values successfully returned by the `dequeue` calls, in order. -/
def runOps : LinkedList α → List (LLOp α) → LinkedList α × List α
  | ll, [] => (ll, [])
  | ll, .add v :: ops => runOps (ll.addValue v) ops
  | ll, .deq :: ops =>
    match ll.dequeue with
    | (some v, ll2) =>
      match runOps ll2 ops with
      | (fin, outs) => (fin, v :: outs)
    | (none, ll2) => runOps ll2 ops

/-- The tree of scenario A of the specification: 4, 2, 6, 1, 3, 5 inserted in
that order into an empty tree (also `setup_bst` in src/bst.rs). -/
def scenarioTree : Tree ℕ := Tree.insertList .leaf [4, 2, 6, 1, 3, 5]

/-- A three-node tree built by the public operations: 2 at the root, 1 left,
3 right. -/
def smallTree : Tree ℕ := Tree.insertList .leaf [2, 1, 3]

/-! ### Basic lemmas about the traversal collectors -/

theorem collectpeekInorder_eq (t : Tree α) (list : List α) :
    collectpeekInorder t list = list ++ t.inorderList := by
  induction t generalizing list with
  | leaf => simp [collectpeekInorder, Tree.inorderList]
  | node l v r ihl ihr => simp [collectpeekInorder, Tree.inorderList, ihl, ihr]

theorem collectpeekTraversalValues_inorder (t : Tree α) :
    collectpeekTraversalValues t .Inorder = t.inorderList := by
  simp [collectpeekTraversalValues, collectpeekInorder_eq]

theorem collectpeekInorderCratell_eq (t : Tree α) (ll : LinkedList α) :
    collectpeekInorderCratell t ll = ⟨collectpeekInorder t ll.chain⟩ := by
  induction t generalizing ll with
  | leaf => simp [collectpeekInorderCratell, collectpeekInorder]
  | node l v r ihl ihr =>
    simp [collectpeekInorderCratell, collectpeekInorder, ihl, ihr, LinkedList.addValue]

/-! ### Lemmas about insertion -/

theorem Tree.mem_addValue [LinearOrder α] (t : Tree α) (v a : α) :
    a ∈ (t.addValue v).inorderList ↔ a = v ∨ a ∈ t.inorderList := by
  induction t with
  | leaf => simp [Tree.addValue, Tree.inorderList]
  | node l x r ihl ihr =>
    rcases lt_trichotomy v x with hvx | hvx | hvx
    · have hc : compare v x = Ordering.lt := compare_lt_iff_lt.2 hvx
      simp only [Tree.addValue, hc, Tree.inorderList, List.mem_append, List.mem_cons, ihl]
      tauto
    · have hc : compare v x = Ordering.eq := compare_eq_iff_eq.2 hvx
      subst hvx
      simp only [Tree.addValue, hc, Tree.inorderList, List.mem_append, List.mem_cons]
      tauto
    · have hc : compare v x = Ordering.gt := compare_gt_iff_gt.2 hvx
      simp only [Tree.addValue, hc, Tree.inorderList, List.mem_append, List.mem_cons, ihr]
      tauto

theorem Tree.ordered_addValue [LinearOrder α] (t : Tree α) (v : α)
    (h : t.ordered = true) : (t.addValue v).ordered = true := by
  induction t with
  | leaf => simp [Tree.addValue, Tree.ordered, Tree.inorderList]
  | node l x r ihl ihr =>
    simp only [Tree.ordered, Bool.and_eq_true, List.all_eq_true, decide_eq_true_eq] at h
    obtain ⟨⟨⟨hlx, hrx⟩, hl⟩, hr⟩ := h
    rcases lt_trichotomy v x with hvx | hvx | hvx
    · have hc : compare v x = Ordering.lt := compare_lt_iff_lt.2 hvx
      simp only [Tree.addValue, hc, Tree.ordered, Bool.and_eq_true, List.all_eq_true,
        decide_eq_true_eq]
      refine ⟨⟨⟨fun a ha => ?_, hrx⟩, ihl hl⟩, hr⟩
      rcases (Tree.mem_addValue l v a).1 ha with rfl | ha2
      · exact hvx
      · exact hlx a ha2
    · have hc : compare v x = Ordering.eq := compare_eq_iff_eq.2 hvx
      simp only [Tree.addValue, hc, Tree.ordered, Bool.and_eq_true, List.all_eq_true,
        decide_eq_true_eq]
      exact ⟨⟨⟨hlx, hrx⟩, hl⟩, hr⟩
    · have hc : compare v x = Ordering.gt := compare_gt_iff_gt.2 hvx
      simp only [Tree.addValue, hc, Tree.ordered, Bool.and_eq_true, List.all_eq_true,
        decide_eq_true_eq]
      refine ⟨⟨⟨hlx, fun a ha => ?_⟩, hl⟩, ihr hr⟩
      rcases (Tree.mem_addValue r v a).1 ha with rfl | ha2
      · exact hvx
      · exact hrx a ha2

theorem Tree.pairwise_of_ordered [LinearOrder α] (t : Tree α) (h : t.ordered = true) :
    t.inorderList.Pairwise (· < ·) := by
  induction t with
  | leaf => simp [Tree.inorderList]
  | node l x r ihl ihr =>
    simp only [Tree.ordered, Bool.and_eq_true, List.all_eq_true, decide_eq_true_eq] at h
    obtain ⟨⟨⟨hlx, hrx⟩, hl⟩, hr⟩ := h
    simp only [Tree.inorderList]
    rw [List.pairwise_append]
    refine ⟨ihl hl, ?_, ?_⟩
    · rw [List.pairwise_cons]
      exact ⟨hrx, ihr hr⟩
    · intro a ha b hb
      rcases List.mem_cons.1 hb with rfl | hb2
      · exact hlx a ha
      · exact lt_trans (hlx a ha) (hrx b hb2)

theorem Tree.mem_insertList [LinearOrder α] (xs : List α) (t : Tree α) (a : α) :
    a ∈ (t.insertList xs).inorderList ↔ a ∈ xs ∨ a ∈ t.inorderList := by
  induction xs generalizing t with
  | nil => simp [Tree.insertList]
  | cons y ys ih =>
    show a ∈ ((t.addValue y).insertList ys).inorderList ↔ _
    rw [ih]
    simp [Tree.mem_addValue]
    tauto

theorem Tree.ordered_insertList [LinearOrder α] (xs : List α) (t : Tree α)
    (h : t.ordered = true) : (t.insertList xs).ordered = true := by
  induction xs generalizing t with
  | nil => exact h
  | cons y ys ih => exact ih (t.addValue y) (Tree.ordered_addValue t y h)

/-! ### Lemmas about removal -/

/-- Whenever `find_minimum_child_below` terminates, it has never moved off the
node it was called on: the node had no left child, and the returned reference
is the node itself. This justifies reading the value swap in
`removeSelfFromTree` as an exchange between the node and its right child. -/
theorem findMinimumChildBelow_eq_self (fuel : Nat) (l : Tree α) (x : α) (r : Tree α)
    (ml : Tree α) (mv : α) (mr : Tree α)
    (h : findMinimumChildBelow fuel l x r = some (ml, mv, mr)) :
    l = .leaf ∧ ml = .leaf ∧ mv = x ∧ mr = r := by
  induction fuel with
  | zero => exact absurd h (by simp [findMinimumChildBelow])
  | succ n ih =>
    cases l with
    | leaf =>
      rw [findMinimumChildBelow] at h
      obtain ⟨h1, h2, h3⟩ := Prod.mk.injEq .. ▸ (Option.some.injEq .. ▸ h :)
      exact ⟨rfl, h1.symm, by simp_all⟩
    | node ll lx lr =>
      rw [findMinimumChildBelow] at h
      exact absurd (ih h).1 (by simp)

/-- On a node that does have a left child, `find_minimum_child_below` recurses
with unchanged arguments, so it fails for every stack budget. -/
theorem findMinimumChildBelow_node_none (a : Tree α) (b : α) (c : Tree α) (x : α)
    (r : Tree α) : ∀ fuel, findMinimumChildBelow fuel (.node a b c) x r = none := by
  intro fuel
  induction fuel with
  | zero => rfl
  | succ n ih => rw [findMinimumChildBelow]; exact ih

/-- On a node whose left child is not "misaligned" (`self.value < left.value`
fails), `drop_misaligned_child` recurses with unchanged arguments, so it fails
for every stack budget. -/
theorem dropMisalignedChild_node_none [LinearOrder α] (ll : Tree α) (lv : α) (lr : Tree α)
    (v : α) (r : Tree α) (h : ¬ v < lv) :
    ∀ fuel, dropMisalignedChild fuel (.node ll lv lr) v r = none := by
  intro fuel
  induction fuel with
  | zero => rfl
  | succ n ih => rw [dropMisalignedChild, if_neg h]; exact ih

/-- Unfolding equation for `removeValueIfChild`: descent to an existing left
child on `Less`. -/
theorem removeValueIfChild_lt [LinearOrder α] (fuel : Nat) (v : α) (ll : Tree α)
    (lx : α) (lr : Tree α) (x : α) (r : Tree α) (hc : compare v x = Ordering.lt) :
    removeValueIfChild fuel v (.node (.node ll lx lr) x r) =
      (removeValueIfChild fuel v (.node ll lx lr)).map (fun l2 => .node l2 x r) := by
  simp only [removeValueIfChild, hc]

/-- Unfolding equation for `removeValueIfChild`: `Less` with no left child. -/
theorem removeValueIfChild_lt_leaf [LinearOrder α] (fuel : Nat) (v x : α) (r : Tree α)
    (hc : compare v x = Ordering.lt) :
    removeValueIfChild fuel v (.node .leaf x r) = some (.node .leaf x r) := by
  simp only [removeValueIfChild, hc]

/-- Unfolding equation for `removeValueIfChild`: descent to an existing right
child on `Greater`. -/
theorem removeValueIfChild_gt [LinearOrder α] (fuel : Nat) (v : α) (l : Tree α)
    (x : α) (rl : Tree α) (rx : α) (rr : Tree α) (hc : compare v x = Ordering.gt) :
    removeValueIfChild fuel v (.node l x (.node rl rx rr)) =
      (removeValueIfChild fuel v (.node rl rx rr)).map (fun r2 => .node l x r2) := by
  simp only [removeValueIfChild, hc]

/-- Unfolding equation for `removeValueIfChild`: `Greater` with no right child. -/
theorem removeValueIfChild_gt_leaf [LinearOrder α] (fuel : Nat) (v : α) (l : Tree α)
    (x : α) (hc : compare v x = Ordering.gt) :
    removeValueIfChild fuel v (.node l x .leaf) = some (.node l x .leaf) := by
  simp only [removeValueIfChild, hc]

/-- Unfolding equation for `removeValueIfChild`: the `Equal` arm hands the node
over to `remove_self_from_tree`. -/
theorem removeValueIfChild_eq [LinearOrder α] (fuel : Nat) (v : α) (l : Tree α)
    (x : α) (r : Tree α) (hc : compare v x = Ordering.eq) :
    removeValueIfChild fuel v (.node l x r) = removeSelfFromTree fuel l x r := by
  cases l <;> cases r <;> simp only [removeValueIfChild, hc]

/-- Removing a value that occurs nowhere in the tree descends without ever
hitting the `Equal` arm, rebuilds the path unchanged, and consumes no fuel. -/
theorem removeValueIfChild_of_not_mem [LinearOrder α] (fuel : Nat) (v : α) :
    ∀ t : Tree α, v ∉ t.inorderList → removeValueIfChild fuel v t = some t := by
  intro t
  induction t with
  | leaf => intro _; rfl
  | node l x r ihl ihr =>
    intro h
    simp only [Tree.inorderList, List.mem_append, List.mem_cons, not_or] at h
    obtain ⟨hl, hx, hr⟩ := h
    rcases lt_trichotomy v x with hvx | hvx | hvx
    · have hc : compare v x = Ordering.lt := compare_lt_iff_lt.2 hvx
      cases l with
      | leaf => exact removeValueIfChild_lt_leaf fuel v x r hc
      | node ll lx lr => rw [removeValueIfChild_lt fuel v ll lx lr x r hc, ihl hl]; rfl
    · exact absurd hvx hx
    · have hc : compare v x = Ordering.gt := compare_gt_iff_gt.2 hvx
      cases r with
      | leaf => exact removeValueIfChild_gt_leaf fuel v l x hc
      | node rl rx rr => rw [removeValueIfChild_gt fuel v l x rl rx rr hc, ihr hr]; rfl

/-! ### Lemmas about the linked list -/

/-- Running any interleaving of appends and front removals starting from any
list state: the successfully dequeued values followed by the values still
stored are the initial contents followed by all appended values, in append
order. -/
theorem runOps_spec (ops : List (LLOp α)) (ll : LinkedList α) :
    (runOps ll ops).2 ++ (runOps ll ops).1.chain = ll.chain ++ addedValues ops := by
  induction ops generalizing ll with
  | nil => simp [runOps, addedValues]
  | cons op ops ih =>
    cases op with
    | add v => simp [runOps, addedValues, ih, LinkedList.addValue]
    | deq =>
      rcases ll with ⟨chain⟩
      cases chain with
      | nil => simpa [runOps, addedValues, LinkedList.dequeue] using ih ⟨[]⟩
      | cons y ys => simpa [runOps, addedValues, LinkedList.dequeue] using ih ⟨ys⟩

theorem Tree.size_addValue_of_not_mem [LinearOrder α] (t : Tree α) (v : α)
    (h : v ∉ t.inorderList) : (t.addValue v).size = t.size + 1 := by
  induction t with
  | leaf => rfl
  | node l x r ihl ihr =>
    simp only [Tree.inorderList, List.mem_append, List.mem_cons, not_or] at h
    obtain ⟨hl, hx, hr⟩ := h
    rcases lt_trichotomy v x with hvx | hvx | hvx
    · have hc : compare v x = Ordering.lt := compare_lt_iff_lt.2 hvx
      simp only [Tree.addValue, hc, Tree.size, ihl hl]
      omega
    · exact absurd hvx hx
    · have hc : compare v x = Ordering.gt := compare_gt_iff_gt.2 hvx
      simp only [Tree.addValue, hc, Tree.size, ihr hr]
      omega

theorem Tree.addValue_of_mem [LinearOrder α] (t : Tree α) (v : α)
    (ho : t.ordered = true) (h : v ∈ t.inorderList) : t.addValue v = t := by
  induction t with
  | leaf => simp [Tree.inorderList] at h
  | node l x r ihl ihr =>
    simp only [Tree.ordered, Bool.and_eq_true, List.all_eq_true, decide_eq_true_eq] at ho
    obtain ⟨⟨⟨hlx, hrx⟩, hl⟩, hr⟩ := ho
    simp only [Tree.inorderList, List.mem_append, List.mem_cons] at h
    rcases lt_trichotomy v x with hvx | hvx | hvx
    · have hc : compare v x = Ordering.lt := compare_lt_iff_lt.2 hvx
      have hvl : v ∈ l.inorderList := by
        rcases h with h | h | h
        · exact h
        · exact absurd h (ne_of_lt hvx)
        · exact absurd (hrx v h) (lt_asymm hvx)
      simp only [Tree.addValue, hc, ihl hl hvl]
    · have hc : compare v x = Ordering.eq := compare_eq_iff_eq.2 hvx
      simp only [Tree.addValue, hc]
    · have hc : compare v x = Ordering.gt := compare_gt_iff_gt.2 hvx
      have hvr : v ∈ r.inorderList := by
        rcases h with h | h | h
        · exact absurd (hlx v h) (lt_asymm hvx)
        · exact absurd h (ne_of_gt hvx)
        · exact h
      simp only [Tree.addValue, hc, ihr hr hvr]

/-! ### The claims -/

/-- C1 (code defect, concrete evaluation): removing the present value 2 from
the tree built by inserting 2, 1, 3 — the two-children case in which
`find_minimum_child_below` happens to terminate — returns a tree in which 2 is
still present, the value multiset is unchanged (inorder [1, 3, 2] instead of
[1, 3]), and the node count has not decreased; the claimed removal contract
fails. -/
theorem remove_present_violates_contract :
    removeValue 9 smallTree 2 =
      some (.node (.node .leaf 1 .leaf) 3 (.node .leaf 2 .leaf)) ∧
    smallTree.inorderList = [1, 2, 3] ∧
    (Tree.node (.node .leaf 1 .leaf) 3 (.node .leaf (2 : ℕ) .leaf)).inorderList
      = [1, 3, 2] ∧
    2 ∈ (Tree.node (.node .leaf 1 .leaf) 3 (.node .leaf (2 : ℕ) .leaf)).inorderList ∧
    (Tree.node (.node .leaf 1 .leaf) 3 (.node .leaf (2 : ℕ) .leaf)).size
      = smallTree.size := by
  decide

/-- C2 (code defect, divergence): scenario C — remove 4 from the tree built by
inserting 4, 2, 6, 1, 3, 5. The node holding 4 has two children and its right
child (6) has a left child (5), so `find_minimum_child_below` recurses on
itself forever: the call returns no result for any stack budget, instead of
the claimed tree with inorder [1, 2, 3, 5, 6] and root value 5. -/
theorem remove_scenario_c_diverges (fuel : Nat) :
    removeValue fuel scenarioTree 4 = none := by
  have hA : scenarioTree =
      Tree.node (.node (.node .leaf 1 .leaf) 2 (.node .leaf 3 .leaf)) 4
        (.node (.node .leaf 5 .leaf) 6 .leaf) := by decide
  rw [hA]
  simp only [removeValue]
  rw [removeValueIfChild_eq fuel 4 _ 4 _ (by decide)]
  simp only [removeSelfFromTree, findMinimumChildBelow_node_none]

/-- C3 (code defect): not every operation terminates with recursion depth
bounded by the path length. `find_minimum_child_below` on a node whose left
child exists, and `drop_misaligned_child` on a node whose left child is not
smaller than required, both recurse with unchanged arguments and exhaust any
stack budget; consequently `remove_value` of the present value 2 (a
two-children node whose right child has a left child) never terminates. -/
theorem removal_helpers_no_progress (fuel : Nat) :
    findMinimumChildBelow fuel (Tree.node .leaf (5 : ℕ) .leaf) 6 .leaf = none ∧
    dropMisalignedChild fuel (Tree.node .leaf (1 : ℕ) .leaf) 1 .leaf = none ∧
    removeValue fuel (Tree.insertList .leaf [2, 1, 4, 3, 5]) 2 = none := by
  refine ⟨findMinimumChildBelow_node_none _ _ _ _ _ fuel,
    dropMisalignedChild_node_none _ _ _ _ _ (lt_irrefl 1) fuel, ?_⟩
  have h : Tree.insertList .leaf [2, 1, 4, 3, 5] =
      Tree.node (.node .leaf 1 .leaf) 2
        (.node (.node .leaf 3 .leaf) 4 (.node .leaf (5 : ℕ) .leaf)) := by decide
  rw [h]
  simp only [removeValue]
  rw [removeValueIfChild_eq fuel 2 _ 2 _ (by decide)]
  simp only [removeSelfFromTree, findMinimumChildBelow_node_none]

/-- C4 (code defect, concrete evaluation): starting from the empty tree,
insert 2, 1, 3 (the invariant holds) and remove 2: the result places 2 in the
right subtree of 3, so the strict BST order invariant fails after a public
operation sequence. -/
theorem remove_breaks_order_invariant :
    smallTree.ordered = true ∧
    removeValue 9 smallTree 2 =
      some (.node (.node .leaf 1 .leaf) 3 (.node .leaf 2 .leaf)) ∧
    (Tree.node (.node .leaf 1 .leaf) 3 (.node .leaf (2 : ℕ) .leaf)).ordered = false := by
  decide

/-- C5, counterexample: requesting a preorder traversal through the crate's
linked-list output container runs into the `todo!()` arm — a panic, not an
optional/boolean absence result. -/
theorem cratell_preorder_hits_todo_panic :
    collectpeekTraversalValuesCratell scenarioTree .Preorder = none := rfl

/-- C5, amended: traversal through the `Vec` container is total in all three
orders, while traversal through the crate's linked-list container returns
normally exactly for the inorder variant (then agreeing with the `Vec`
result); its preorder and postorder variants are unimplemented `todo!()`
panics. -/
theorem traversal_panic_taxonomy (t : Tree α) :
    (∀ order, (collectpeekTraversalValuesCratell t order).isSome ↔ order = .Inorder) ∧
    collectpeekTraversalValuesCratell t .Inorder =
      some ⟨collectpeekTraversalValues t .Inorder⟩ := by
  constructor
  · intro order
    cases order <;> simp [collectpeekTraversalValuesCratell]
  · simp [collectpeekTraversalValuesCratell, collectpeekInorderCratell_eq,
      collectpeekTraversalValues, LinkedList.new]

/-- C6: for every finite sequence of insertions into an initially empty tree,
the inorder traversal is strictly ascending (hence duplicate-free) and holds
exactly the values of the insertion sequence; being strictly ascending with
exactly those members, it is the ascending-sorted sequence of the distinct
inserted values. -/
theorem inorder_sorted_distinct [LinearOrder α] (xs : List α) :
    (collectpeekTraversalValues (Tree.insertList .leaf xs) .Inorder).Pairwise (· < ·) ∧
    (∀ a, a ∈ collectpeekTraversalValues (Tree.insertList .leaf xs) .Inorder ↔ a ∈ xs) := by
  rw [collectpeekTraversalValues_inorder]
  constructor
  · exact Tree.pairwise_of_ordered _ (Tree.ordered_insertList xs .leaf rfl)
  · intro a
    rw [Tree.mem_insertList]
    simp [Tree.inorderList]

/-- C7: removing a value not present in the tree (any tree, including the
empty one) terminates without consuming fuel, returns the tree unchanged, and
leaves the inorder traversal identical. -/
theorem remove_absent_noop [LinearOrder α] (fuel : Nat) (t : Tree α) (v : α)
    (h : v ∉ t.inorderList) :
    removeValue fuel t v = some t ∧
    (removeValue fuel t v).map (fun t2 => collectpeekTraversalValues t2 .Inorder) =
      some (collectpeekTraversalValues t .Inorder) := by
  have he : removeValue fuel t v = some t := by
    cases t with
    | leaf => rfl
    | node l x r => exact removeValueIfChild_of_not_mem fuel v _ h
  exact ⟨he, by rw [he, Option.map_some']⟩

/-- Witness for the theorem of claim C7 at a concrete input. -/
theorem remove_absent_noop_witness :
    (5 : ℕ) ∉ smallTree.inorderList ∧ removeValue 0 smallTree 5 = some smallTree :=
  ⟨by decide, (remove_absent_noop 0 smallTree 5 (by decide)).1⟩

/-- C8: on a tree satisfying the BST order invariant, inserting a value
already present returns the very same tree (no mutation, no new node), while
inserting an absent value grows the node count by exactly one. -/
theorem insert_present_noop_absent_allocates_one [LinearOrder α] (t : Tree α) (v : α)
    (ho : t.ordered = true) :
    (v ∈ t.inorderList → t.addValue v = t) ∧
    (v ∉ t.inorderList → (t.addValue v).size = t.size + 1) :=
  ⟨fun h => Tree.addValue_of_mem t v ho h, fun h => Tree.size_addValue_of_not_mem t v h⟩

/-- Witness for the theorem of claim C8 at concrete inputs: inserting the
present value 2 is an identity, inserting the absent value 7 adds one node. -/
theorem insert_present_noop_witness :
    smallTree.ordered = true ∧ smallTree.addValue 2 = smallTree ∧
    (smallTree.addValue 7).size = smallTree.size + 1 :=
  ⟨by decide,
   (insert_present_noop_absent_allocates_one smallTree 2 (by decide)).1 (by decide),
   (insert_present_noop_absent_allocates_one smallTree 7 (by decide)).2 (by decide)⟩

/-- C9: for every interleaving of appends and front removals starting from a
fresh linked list, the values returned by the front removals, followed by the
values still stored, are exactly the appended values in append order — the
i-th successful `dequeue` returns the i-th appended value (FIFO). -/
theorem dequeue_returns_fifo (ops : List (LLOp α)) :
    (runOps LinkedList.new ops).2 ++ (runOps LinkedList.new ops).1.chain =
      addedValues ops := by
  simpa [LinkedList.new] using runOps_spec ops LinkedList.new

/-- C10: on an empty linked list, `dequeue` returns `None` and leaves the list
unchanged, and `peek_head_value` returns `None`; neither panics. -/
theorem dequeue_and_peek_on_empty (α : Type) :
    (LinkedList.new : LinkedList α).dequeue = (none, LinkedList.new) ∧
    (LinkedList.new : LinkedList α).peekHeadValue = none :=
  ⟨rfl, rfl⟩

end RustBst
